import Mathlib

/-!
Verification of the de Bruijn graph builder (`debruijn.py`) and the greedy
unitig extractor (`unitig.py`).

Python strings are modelled as `List Char`, Python dicts as association
lists preserving insertion order (`Dict`), and `defaultdict` accesses as
get-or-insert operations (`dgetI`, `dinc`, `dappendV`) that faithfully thread
the possible insertion of a default-valued entry.  The extractor's `while`
loop is modelled with explicit fuel (`walk`); `find_unitigs` supplies enough
fuel that the model agrees with every terminating run of the Python code,
and a `fuelOut` outcome corresponds to a diverging run.
-/

set_option maxRecDepth 8000
set_option synthInstance.maxHeartbeats 1000000

namespace DebruijnSpec

/-- A graph node: a Python string, modelled as a list of characters. -/
abbrev Node := List Char

/-- A Python dict with `Node` keys, modelled as an insertion-ordered
association list with unique keys (uniqueness is maintained by the update
operations below, never assumed). -/
abbrev Dict (α : Type) := List (Node × α)

/-- Dict lookup: the value stored at key `x`, if present. -/
def dlookup {α : Type} : Dict α → Node → Option α
  | [], _ => none
  | (k, v) :: rest, x => if k = x then some v else dlookup rest x

/-- Lookup with a default value (a non-mutating read). -/
def dgetD {α : Type} (d : Dict α) (x : Node) (dflt : α) : α :=
  (dlookup d x).getD dflt

/-- Update the value at an existing key in place, or append the binding at the
end (Python dicts keep the original position of an updated key and append new
keys at the end). -/
def dset {α : Type} : Dict α → Node → α → Dict α
  | [], x, v => [(x, v)]
  | (k, w) :: rest, x, v =>
    if k = x then (k, v) :: rest else (k, w) :: dset rest x v

/-- `defaultdict.__getitem__`: return the stored value, or insert the default
at the end and return it.  The second component is the possibly-extended
dict. -/
def dgetI {α : Type} (d : Dict α) (x : Node) (dflt : α) : α × Dict α :=
  match dlookup d x with
  | some v => (v, d)
  | none => (dflt, d ++ [(x, dflt)])

/-- `d[x] += n` on a `defaultdict(int)`. -/
def dinc (d : Dict Nat) (x : Node) (n : Nat) : Dict Nat :=
  match dlookup d x with
  | some v => dset d x (v + n)
  | none => d ++ [(x, n)]

/-- `d[x].append(v)` on a `defaultdict(list)`. -/
def dappendV (d : Dict (List Node)) (x : Node) (v : Node) : Dict (List Node) :=
  match dlookup d x with
  | some l => dset d x (l ++ [v])
  | none => d ++ [(x, [v])]

/-- The keys of a dict, in insertion order. -/
def dkeys {α : Type} (d : Dict α) : List Node := d.map Prod.fst

/-- Clamp a Python slice index into `[0, n]` (negative indices count from the
end, as in Python). -/
def pyIdx (n : Nat) (i : Int) : Nat :=
  if i < 0 then (i + n).toNat else min i.toNat n

/-- Python string slicing `s[a:b]` (step 1). -/
def pySlice (s : List Char) (a b : Int) : List Char :=
  (s.take (pyIdx s.length b)).drop (pyIdx s.length a)

/-- The triple returned by `build_debruijn_graph`. -/
structure Graph where
  adj : Dict (List Node)
  indeg : Dict Nat
  outdeg : Dict Nat
deriving DecidableEq

/-- One iteration of the inner loop of `build_debruijn_graph`:
`adj[u].append(v); outdeg[u] += 1; indeg[v] += 1; indeg[u] += 0;
outdeg[v] += 0`. -/
def addEdge (g : Graph) (u v : Node) : Graph :=
  { adj := dappendV g.adj u v
    indeg := dinc (dinc g.indeg v 1) u 0
    outdeg := dinc (dinc g.outdeg u 1) v 0 }

/-- The `(u, v)` pairs contributed by one read: for
`i in range(len(read) - k)`, `u = read[i:i+k]`, `v = read[i+1:i+k+1]`. -/
def readEdges (read : List Char) (k : Int) : List (Node × Node) :=
  (List.range ((read.length : Int) - k).toNat).map fun i =>
    (pySlice read (i : Nat) ((i : Nat) + k),
     pySlice read ((i : Nat) + 1) ((i : Nat) + k + 1))

/-- `build_debruijn_graph(reads, k)` from `debruijn.py`. -/
def build_debruijn_graph (reads : List (List Char)) (k : Int) : Graph :=
  reads.foldl
    (fun g read => (readEdges read k).foldl (fun g e => addEdge g e.1 e.2) g)
    ⟨[], [], []⟩

/-- `visited_edges.add e` (Python set insertion: no effect if present). -/
def sadd (s : List (Node × Node)) (e : Node × Node) : List (Node × Node) :=
  if e ∈ s then s else s ++ [e]

/-- One evaluation of the anchor condition
`indeg[v] != 1 or outdeg[v] != 1 or (indeg[v] == 0 and outdeg[v] == 0)`
with Python short-circuiting and `defaultdict` insertion threaded.  The third
clause is only reached when `indeg[v] == 1`, hence never holds and performs
no further insertion. -/
def anchorCheck (ind outd : Dict Nat) (v : Node) : Bool × Dict Nat × Dict Nat :=
  let p := dgetI ind v 0
  if p.1 ≠ 1 then (true, p.2, outd)
  else
    let q := dgetI outd v 0
    if q.1 ≠ 1 then (true, p.2, q.2) else (false, p.2, q.2)

/-- The list comprehension computing `anchors`, threading the degree dicts. -/
def computeAnchors : List Node → Dict Nat → Dict Nat →
    List Node × Dict Nat × Dict Nat
  | [], ind, outd => ([], ind, outd)
  | v :: rest, ind, outd =>
    let t := anchorCheck ind outd v
    let r := computeAnchors rest t.2.1 t.2.2
    (if t.1 then v :: r.1 else r.1, r.2)

/-- Result of the inner `while` loop of `find_unitigs`. -/
inductive WalkRes where
  | ok (path : List Node) (visited : List (Node × Node))
      (adj : Dict (List Node)) (indeg outdeg : Dict Nat)
  | indexErr
  | fuelOut
deriving DecidableEq

/-- One evaluation of `indeg[u] == 1 and outdeg[u] == 1` with Python
short-circuiting and `defaultdict` insertion threaded. -/
def whileCond (ind outd : Dict Nat) (u : Node) : Bool × Dict Nat × Dict Nat :=
  let p := dgetI ind u 0
  if p.1 = 1 then
    let q := dgetI outd u 0
    (decide (q.1 = 1), p.2, q.2)
  else (false, p.2, outd)

/-- The `while indeg[u] == 1 and outdeg[u] == 1` loop of `find_unitigs`,
including the final `path.append(u)` after the loop.  `indexErr` models the
`IndexError` raised by `adj[u][0]` on an empty list; `fuelOut` models a
diverging run. -/
def walk : Nat → Dict (List Node) → Dict Nat → Dict Nat → List Node →
    List (Node × Node) → Node → WalkRes
  | 0, _, _, _, _, _, _ => .fuelOut
  | fuel + 1, adj, ind, outd, path, visited, u =>
    let c := whileCond ind outd u
    if c.1 then
      let a := dgetI adj u []
      match a.1 with
      | [] => .indexErr
      | nw :: _ =>
        walk fuel a.2 c.2.1 c.2.2 (path ++ [u]) (sadd visited (u, nw)) nw
    else .ok (path ++ [u]) visited adj c.2.1 c.2.2

/-- Result of `find_unitigs`: the final state on normal return, or the fatal
`IndexError`, or divergence. -/
inductive Outcome where
  | ok (adj : Dict (List Node)) (indeg outdeg : Dict Nat)
      (visited : List (Node × Node)) (unitigs : List (List Node))
  | indexErr
  | fuelOut
deriving DecidableEq

/-- The `for w in adj[v]` loop body for one anchor `v`. -/
def processNeighbors (fuel : Nat) (v : Node) :
    List Node → Dict (List Node) → Dict Nat → Dict Nat →
    List (Node × Node) → List (List Node) → Outcome
  | [], adj, ind, outd, visited, unitigs => .ok adj ind outd visited unitigs
  | w :: rest, adj, ind, outd, visited, unitigs =>
    if (v, w) ∈ visited then
      processNeighbors fuel v rest adj ind outd visited unitigs
    else
      match walk fuel adj ind outd [v] (sadd visited (v, w)) w with
      | .ok path vis adj2 ind2 outd2 =>
        processNeighbors fuel v rest adj2 ind2 outd2 vis (unitigs ++ [path])
      | .indexErr => .indexErr
      | .fuelOut => .fuelOut

/-- The `for v in anchors` loop of `find_unitigs`. -/
def processAnchors (fuel : Nat) :
    List Node → Dict (List Node) → Dict Nat → Dict Nat →
    List (Node × Node) → List (List Node) → Outcome
  | [], adj, ind, outd, visited, unitigs => .ok adj ind outd visited unitigs
  | v :: rest, adj, ind, outd, visited, unitigs =>
    let a := dgetI adj v []
    match processNeighbors fuel v a.1 a.2 ind outd visited unitigs with
    | .ok adj2 ind2 outd2 vis uni => processAnchors fuel rest adj2 ind2 outd2 vis uni
    | .indexErr => .indexErr
    | .fuelOut => .fuelOut

/-- Total number of edge occurrences recorded in the adjacency map
(the sum of the lengths of all adjacency lists). -/
def totalLen (adj : Dict (List Node)) : Nat :=
  (adj.map fun p => p.2.length).sum

/-- `find_unitigs` with explicit fuel for the inner `while` loop. -/
def find_unitigsF (fuel : Nat) (adj : Dict (List Node)) (ind outd : Dict Nat) :
    Outcome :=
  let r := computeAnchors (dkeys adj) ind outd
  processAnchors fuel r.1 adj r.2.1 r.2.2 [] []

/-- `find_unitigs(adj, indeg, outdeg)` from `unitig.py`.  The fuel
`totalLen adj + 1` dominates the length of any terminating run of the inner
`while` loop (any longer run revisits a node and hence diverges in Python). -/
def find_unitigs (adj : Dict (List Node)) (ind outd : Dict Nat) : Outcome :=
  find_unitigsF (totalLen adj + 1) adj ind outd

/-- The adjacency list of `x` as read by the extractor (`[]` when absent). -/
def adjD (adj : Dict (List Node)) (x : Node) : List Node := dgetD adj x []

/-- Number of occurrences of `y` in a list of nodes. -/
def occ (y : Node) : List Node → Nat
  | [] => 0
  | a :: t => (if a = y then 1 else 0) + occ y t

/-- Sum of `f` over all values of a dict. -/
def vsum {α : Type} (f : α → Nat) (d : Dict α) : Nat :=
  (d.map fun p => f p.2).sum

/-- Total number of occurrences of `y` as an edge destination. -/
def indCount (adj : Dict (List Node)) (y : Node) : Nat :=
  vsum (occ y) adj

/-- Sum of the values of a degree dict. -/
def sumVals (d : Dict Nat) : Nat := vsum (fun v => v) d

/-! ### Dictionary lemmas -/

theorem dlookup_dset {α : Type} (d : Dict α) (x : Node) (v : α) (y : Node) :
    dlookup (dset d x v) y = if x = y then some v else dlookup d y := by
  induction d with
  | nil =>
    by_cases hxy : x = y <;> simp [dset, dlookup, hxy]
  | cons p rest ih =>
    obtain ⟨k, w⟩ := p
    by_cases hkx : k = x
    · subst hkx
      by_cases hky : k = y <;> simp [dset, dlookup, hky]
    · by_cases hky : k = y
      · have hxy : ¬x = y := fun h => hkx (hky.trans h.symm)
        have hyx : ¬y = x := fun h => hxy h.symm
        simp [dset, dlookup, hkx, hky, hxy, hyx]
      · simp [dset, dlookup, hkx, hky, ih]

theorem dlookup_append {α : Type} (d1 d2 : Dict α) (x : Node) :
    dlookup (d1 ++ d2) x =
      match dlookup d1 x with
      | some v => some v
      | none => dlookup d2 x := by
  induction d1 with
  | nil => simp [dlookup]
  | cons p rest ih =>
    obtain ⟨k, w⟩ := p
    by_cases hk : k = x <;> simp [dlookup, hk, ih]

theorem dlookup_dinc (d : Dict Nat) (x : Node) (n : Nat) (y : Node) :
    dlookup (dinc d x n) y =
      if x = y then some (dgetD d x 0 + n) else dlookup d y := by
  unfold dinc
  cases h : dlookup d x with
  | some v => rw [dlookup_dset]; simp [dgetD, h]
  | none =>
    rw [dlookup_append]
    by_cases hxy : x = y
    · subst hxy; simp [h, dlookup, dgetD]
    · cases h2 : dlookup d y <;> simp [dlookup, hxy, dgetD, h, h2]

theorem dlookup_dappendV (d : Dict (List Node)) (x : Node) (v : Node) (y : Node) :
    dlookup (dappendV d x v) y =
      if x = y then some (dgetD d x [] ++ [v]) else dlookup d y := by
  unfold dappendV
  cases h : dlookup d x with
  | some l => rw [dlookup_dset]; simp [dgetD, h]
  | none =>
    rw [dlookup_append]
    by_cases hxy : x = y
    · subst hxy; simp [h, dlookup, dgetD]
    · cases h2 : dlookup d y <;> simp [dlookup, hxy, dgetD, h, h2]

theorem dlookup_isSome_iff {α : Type} (d : Dict α) (y : Node) :
    (dlookup d y).isSome ↔ y ∈ dkeys d := by
  induction d with
  | nil => simp [dlookup, dkeys]
  | cons p rest ih =>
    obtain ⟨k, w⟩ := p
    by_cases hk : k = y
    · subst hk; simp [dlookup, dkeys]
    · have hk2 : ¬y = k := fun h => hk h.symm
      simp [dlookup, dkeys, hk, hk2, ih]

theorem dlookup_mem {α : Type} {d : Dict α} {x : Node} {v : α}
    (h : dlookup d x = some v) : (x, v) ∈ d := by
  induction d with
  | nil => simp [dlookup] at h
  | cons p rest ih =>
    obtain ⟨k, w⟩ := p
    by_cases hk : k = x
    · subst hk; simp [dlookup] at h; simp [h]
    · simp [dlookup, hk] at h
      exact List.mem_cons_of_mem _ (ih h)

theorem vsum_dset {α : Type} (f : α → Nat) (d : Dict α) (x : Node) (v w : α)
    (h : dlookup d x = some w) :
    vsum f (dset d x v) + f w = vsum f d + f v := by
  induction d with
  | nil => simp [dlookup] at h
  | cons p rest ih =>
    obtain ⟨k, u⟩ := p
    by_cases hk : k = x
    · subst hk
      simp [dlookup] at h
      subst h
      simp [dset, vsum]
      omega
    · simp [dlookup, hk] at h
      have := ih h
      simp [dset, hk, vsum] at this ⊢
      omega

theorem vsum_append {α : Type} (f : α → Nat) (d1 d2 : Dict α) :
    vsum f (d1 ++ d2) = vsum f d1 + vsum f d2 := by
  simp [vsum]

theorem sumVals_dinc (d : Dict Nat) (x : Node) (n : Nat) :
    sumVals (dinc d x n) = sumVals d + n := by
  unfold dinc
  cases h : dlookup d x with
  | some v =>
    have := vsum_dset (fun v => v) d x (v + n) v h
    simp [sumVals] at this ⊢
    omega
  | none => simp [sumVals, vsum_append, vsum]

theorem vsum_dappendV (f : List Node → Nat) (hf : f [] = 0)
    (d : Dict (List Node)) (x v : Node) :
    vsum f (dappendV d x v) + f (dgetD d x []) =
      vsum f d + f (dgetD d x [] ++ [v]) := by
  unfold dappendV
  cases h : dlookup d x with
  | some l =>
    have := vsum_dset f d x (l ++ [v]) l h
    simp [dgetD, h]
    omega
  | none => simp [dgetD, h, vsum_append, vsum, hf]

theorem totalLen_eq_vsum (adj : Dict (List Node)) :
    totalLen adj = vsum List.length adj := rfl

theorem totalLen_dappendV (d : Dict (List Node)) (x v : Node) :
    totalLen (dappendV d x v) = totalLen d + 1 := by
  have := vsum_dappendV List.length rfl d x v
  rw [totalLen_eq_vsum, totalLen_eq_vsum]
  simp at this
  omega

theorem occ_append (y : Node) (l1 l2 : List Node) :
    occ y (l1 ++ l2) = occ y l1 + occ y l2 := by
  induction l1 with
  | nil => simp [occ]
  | cons a t ih => simp [occ, ih]; omega

theorem occ_pos_iff_mem (y : Node) (l : List Node) : 0 < occ y l ↔ y ∈ l := by
  induction l with
  | nil => simp [occ]
  | cons a t ih =>
    by_cases h : a = y
    · subst h; simp [occ]
    · have h2 : ¬y = a := fun hh => h hh.symm
      simp [occ, h, h2, ih]

theorem indCount_dappendV (d : Dict (List Node)) (x v y : Node) :
    indCount (dappendV d x v) y = indCount d y + (if v = y then 1 else 0) := by
  have := vsum_dappendV (occ y) rfl d x v
  unfold indCount
  rw [occ_append] at this
  simp [occ] at this
  omega

theorem vsum_le {α : Type} (f : α → Nat) {d : Dict α} {x : Node} {lx : α}
    (h : dlookup d x = some lx) : f lx ≤ vsum f d := by
  induction d with
  | nil => simp [dlookup] at h
  | cons p rest ih =>
    obtain ⟨k, w⟩ := p
    by_cases hk : k = x
    · subst hk; simp [dlookup] at h; subst h; simp [vsum]
    · simp [dlookup, hk] at h
      have := ih h
      simp [vsum] at this ⊢
      omega

theorem vsum_two_le {α : Type} (f : α → Nat) {d : Dict α} {x y : Node}
    {lx ly : α} (hx : dlookup d x = some lx) (hy : dlookup d y = some ly)
    (hxy : x ≠ y) : f lx + f ly ≤ vsum f d := by
  induction d with
  | nil => simp [dlookup] at hx
  | cons p rest ih =>
    obtain ⟨k, w⟩ := p
    by_cases hkx : k = x
    · subst hkx
      simp [dlookup] at hx
      subst hx
      have hky : k ≠ y := hxy
      simp [dlookup, hky] at hy
      have := vsum_le f hy
      simp [vsum] at this ⊢
      omega
    · by_cases hky : k = y
      · subst hky
        simp [dlookup] at hy
        subst hy
        simp [dlookup, hkx] at hx
        have := vsum_le f hx
        simp [vsum] at this ⊢
        omega
      · simp [dlookup, hkx, hky] at hx hy
        have := ih hx hy
        simp [vsum] at this ⊢
        omega

/-! ### Counting facts about the builder -/

theorem foldl_addEdge_totalLen (es : List (Node × Node)) (g : Graph) :
    totalLen ((es.foldl (fun g e => addEdge g e.1 e.2) g).adj) =
      totalLen g.adj + es.length := by
  induction es generalizing g with
  | nil => simp
  | cons e t ih =>
    simp only [List.foldl_cons]
    rw [ih]
    have : totalLen ((addEdge g e.1 e.2).adj) = totalLen g.adj + 1 :=
      totalLen_dappendV g.adj e.1 e.2
    simp [this]
    omega

theorem readEdges_length (r : List Char) (k : Int) :
    (readEdges r k).length = ((r.length : Int) - k).toNat := by
  unfold readEdges
  rw [List.length_map, List.length_range]

theorem build_totalLen (reads : List (List Char)) (k : Int) :
    totalLen (build_debruijn_graph reads k).adj =
      (reads.map fun r => ((r.length : Int) - k).toNat).sum := by
  suffices h : ∀ g : Graph,
      totalLen ((reads.foldl
        (fun g read => (readEdges read k).foldl (fun g e => addEdge g e.1 e.2) g)
        g).adj) =
        totalLen g.adj + (reads.map fun r => ((r.length : Int) - k).toNat).sum by
    simpa [build_debruijn_graph, totalLen, vsum] using h ⟨[], [], []⟩
  intro g
  induction reads generalizing g with
  | nil => simp
  | cons r t ih =>
    simp only [List.foldl_cons, List.map_cons, List.sum_cons]
    rw [ih, foldl_addEdge_totalLen, readEdges_length]
    omega

theorem foldl_addEdge_sumVals_ind (es : List (Node × Node)) (g : Graph) :
    sumVals ((es.foldl (fun g e => addEdge g e.1 e.2) g).indeg) =
      sumVals g.indeg + es.length := by
  induction es generalizing g with
  | nil => simp
  | cons e t ih =>
    simp only [List.foldl_cons, List.length_cons]
    have hstep : sumVals ((addEdge g e.1 e.2).indeg) = sumVals g.indeg + 1 := by
      show sumVals (dinc (dinc g.indeg e.2 1) e.1 0) = _
      rw [sumVals_dinc, sumVals_dinc]
    have := ih (addEdge g e.1 e.2)
    omega

theorem foldl_addEdge_sumVals_out (es : List (Node × Node)) (g : Graph) :
    sumVals ((es.foldl (fun g e => addEdge g e.1 e.2) g).outdeg) =
      sumVals g.outdeg + es.length := by
  induction es generalizing g with
  | nil => simp
  | cons e t ih =>
    simp only [List.foldl_cons, List.length_cons]
    have hstep : sumVals ((addEdge g e.1 e.2).outdeg) = sumVals g.outdeg + 1 := by
      show sumVals (dinc (dinc g.outdeg e.1 1) e.2 0) = _
      rw [sumVals_dinc, sumVals_dinc]
    have := ih (addEdge g e.1 e.2)
    omega

theorem build_sumVals (reads : List (List Char)) (k : Int) :
    sumVals (build_debruijn_graph reads k).indeg =
        totalLen (build_debruijn_graph reads k).adj ∧
    sumVals (build_debruijn_graph reads k).outdeg =
        totalLen (build_debruijn_graph reads k).adj := by
  suffices h : ∀ g : Graph,
      (sumVals ((reads.foldl
          (fun g read => (readEdges read k).foldl (fun g e => addEdge g e.1 e.2) g)
          g).indeg) =
        sumVals g.indeg + (reads.map fun r => ((r.length : Int) - k).toNat).sum) ∧
      (sumVals ((reads.foldl
          (fun g read => (readEdges read k).foldl (fun g e => addEdge g e.1 e.2) g)
          g).outdeg) =
        sumVals g.outdeg + (reads.map fun r => ((r.length : Int) - k).toNat).sum) by
    have h0 := h ⟨[], [], []⟩
    have hT := build_totalLen reads k
    constructor
    · rw [hT]
      simpa [build_debruijn_graph, sumVals, vsum] using h0.1
    · rw [hT]
      simpa [build_debruijn_graph, sumVals, vsum] using h0.2
  intro g
  induction reads generalizing g with
  | nil => simp
  | cons r t ih =>
    simp only [List.foldl_cons, List.map_cons, List.sum_cons]
    obtain ⟨ih1, ih2⟩ := ih ((readEdges r k).foldl (fun g e => addEdge g e.1 e.2) g)
    have f1 := foldl_addEdge_sumVals_ind (readEdges r k) g
    have f2 := foldl_addEdge_sumVals_out (readEdges r k) g
    have hl := readEdges_length r k
    constructor
    · rw [ih1]; omega
    · rw [ih2]; omega

/-- **C2** (confirmed).  For every list of reads and every integer `k > 0`,
the total number of edge occurrences recorded by `build_debruijn_graph`
(the sum of the lengths of all adjacency lists) equals the sum over reads of
`max(0, length(read) − k)` (`Int.toNat` clamps negatives to `0`); in
particular a read of length at most `k` contributes no edges. -/
theorem C2_edge_count (reads : List (List Char)) (k : Int) (hk : 0 < k) :
    totalLen (build_debruijn_graph reads k).adj =
      (reads.map fun r => ((r.length : Int) - k).toNat).sum :=
  build_totalLen reads k

/-- Witness for C2 at `reads = ["abc", "a"]`, `k = 2`: the short read
contributes no edges and the total is `1`. -/
theorem C2_edge_count_witness :
    (0 : Int) < 2 ∧
      totalLen (build_debruijn_graph [['a', 'b', 'c'], ['a']] 2).adj =
        ([['a', 'b', 'c'], ['a']].map fun r => ((r.length : Int) - 2).toNat).sum :=
  ⟨by decide, C2_edge_count [['a', 'b', 'c'], ['a']] 2 (by decide)⟩

/-- **C3** (counterexample).  The claim asserts that `k ≤ 0` yields an empty
graph; but at `k = 0` and `reads = ["ab"]` the code runs
`for i in range(len(read) - 0)` and records two edges between empty-string
nodes, so the adjacency map is not empty. -/
theorem C3_counterexample :
    (0 : Int) ≤ 0 ∧ (build_debruijn_graph [['a', 'b']] 0).adj ≠ [] := by
  constructor
  · decide
  · decide

/-- **C3** (amended).  For every list of reads, if `k > 0` and `k` exceeds
the length of every read, `build_debruijn_graph` returns an empty adjacency
map and empty degree maps and does not fail.  (The original claim's `k ≤ 0`
case is refuted by `C3_counterexample`.) -/
theorem C3_amended (reads : List (List Char)) (k : Int) (hk : 0 < k)
    (hbig : ∀ r ∈ reads, (r.length : Int) < k) :
    build_debruijn_graph reads k = ⟨[], [], []⟩ := by
  unfold build_debruijn_graph
  induction reads with
  | nil => rfl
  | cons r t ih =>
    have h0 : ((r.length : Int) - k).toNat = 0 := by
      have := hbig r (by simp)
      omega
    have h1 : readEdges r k = [] := by simp [readEdges, h0]
    simp only [List.foldl_cons, h1, List.foldl_nil]
    exact ih fun r hr => hbig r (List.mem_cons_of_mem _ hr)

/-- Witness for the amended C3 at `reads = ["ab"]`, `k = 5`. -/
theorem C3_amended_witness :
    ((0 : Int) < 5 ∧ ∀ r ∈ [['a', 'b']], (r.length : Int) < 5) ∧
      build_debruijn_graph [['a', 'b']] 5 = ⟨[], [], []⟩ :=
  ⟨⟨by decide, by decide⟩, C3_amended [['a', 'b']] 5 (by decide) (by decide)⟩

/-- **C4** (confirmed).  For every list of reads and every `k`, the sum of
all outdegree values equals the sum of all indegree values, and both equal
the total number of edge occurrences recorded in the adjacency map. -/
theorem C4_degree_sums (reads : List (List Char)) (k : Int) :
    sumVals (build_debruijn_graph reads k).outdeg =
        sumVals (build_debruijn_graph reads k).indeg ∧
    sumVals (build_debruijn_graph reads k).indeg =
        totalLen (build_debruijn_graph reads k).adj := by
  obtain ⟨h1, h2⟩ := build_sumVals reads k
  exact ⟨by rw [h1, h2], h1⟩

/-! ### Pure cycles and broken invariants -/

theorem computeAnchors_all_interior (ind outd : Dict Nat) (ks : List Node)
    (h : ∀ v ∈ ks, dlookup ind v = some 1 ∧ dlookup outd v = some 1) :
    computeAnchors ks ind outd = ([], ind, outd) := by
  induction ks with
  | nil => rfl
  | cons v rest ih =>
    have h1 := (h v (by simp)).1
    have h2 := (h v (by simp)).2
    have hr := ih fun x hx => h x (by simp [hx])
    simp [computeAnchors, anchorCheck, dgetI, h1, h2, hr]

/-- **C6** (confirmed).  In a graph in which every node present in the
adjacency map has indegree exactly 1 and outdegree exactly 1 (a pure cycle),
`find_unitigs` selects no anchors and returns an empty unitig list, without
error and without touching any of the maps. -/
theorem C6_pure_cycle (adj : Dict (List Node)) (ind outd : Dict Nat)
    (h : ∀ v ∈ dkeys adj, dlookup ind v = some 1 ∧ dlookup outd v = some 1) :
    find_unitigs adj ind outd = .ok adj ind outd [] [] := by
  unfold find_unitigs find_unitigsF
  rw [computeAnchors_all_interior ind outd (dkeys adj) h]
  rfl

/-- Witness for C6: the 2-cycle `a → b → a` yields no anchors and no
unitigs. -/
theorem C6_pure_cycle_witness :
    (∀ v ∈ dkeys [(['a'], [['b']]), (['b'], [['a']])],
        dlookup [(['a'], 1), (['b'], 1)] v = some 1 ∧
          dlookup [(['a'], 1), (['b'], 1)] v = some 1) ∧
      find_unitigs [(['a'], [['b']]), (['b'], [['a']])]
          [(['a'], 1), (['b'], 1)] [(['a'], 1), (['b'], 1)] =
        .ok [(['a'], [['b']]), (['b'], [['a']])]
          [(['a'], 1), (['b'], 1)] [(['a'], 1), (['b'], 1)] [] [] :=
  ⟨by decide, C6_pure_cycle _ _ _ (by decide)⟩

theorem walk_broken_indexErr (fuel : Nat) (adj : Dict (List Node))
    (ind outd : Dict Nat) (path : List Node) (vis : List (Node × Node))
    (u : Node) (h1 : dlookup ind u = some 1) (h2 : dlookup outd u = some 1)
    (h3 : dgetD adj u [] = []) :
    walk (fuel + 1) adj ind outd path vis u = .indexErr := by
  have hc : whileCond ind outd u = (true, ind, outd) := by
    simp [whileCond, dgetI, h1, h2]
  cases hlk : dlookup adj u with
  | none => simp [walk, hc, dgetI, hlk]
  | some l =>
    have hl : l = [] := by simpa [dgetD, hlk] using h3
    subst hl
    simp [walk, hc, dgetI, hlk]

/-- **C8** (confirmed).  First conjunct: whenever the traversal loop of
`find_unitigs` reaches a node `u` with `indeg[u] == 1` and `outdeg[u] == 1`
but `adj[u]` empty, the lookup `adj[u][0]` fails immediately with the fatal
`IndexError`.  Second conjunct, end to end: on a graph `{v: [w], w: []}`
whose degree maps claim `indeg[w] == outdeg[w] == 1` (inconsistent with the
empty `adj[w]`), the whole `find_unitigs` call surfaces the `IndexError` and
returns no unitig list. -/
theorem C8_broken_invariant :
    (∀ (fuel : Nat) (adj : Dict (List Node)) (ind outd : Dict Nat)
        (path : List Node) (vis : List (Node × Node)) (u : Node),
        dlookup ind u = some 1 → dlookup outd u = some 1 →
        dgetD adj u [] = [] →
        walk (fuel + 1) adj ind outd path vis u = .indexErr) ∧
    (∀ (v w : Node) (ind outd : Dict Nat) (iv : Nat), v ≠ w →
        dlookup ind v = some iv → iv ≠ 1 →
        dlookup ind w = some 1 → dlookup outd w = some 1 →
        find_unitigs [(v, [w]), (w, [])] ind outd = .indexErr) := by
  constructor
  · exact walk_broken_indexErr
  · intro v w ind outd iv hvw hiv hiv1 hw1 hw2
    have hwv : ¬w = v := fun h => hvw h.symm
    have hadjv : dlookup [(v, [w]), (w, ([] : List Node))] v = some [w] := by
      simp [dlookup]
    have hadjw : dlookup [(v, [w]), (w, ([] : List Node))] w = some [] := by
      simp [dlookup, hvw]
    have hA : computeAnchors [v, w] ind outd = ([v], ind, outd) := by
      simp [computeAnchors, anchorCheck, dgetI, hiv, hiv1, hw1, hw2]
    have hwalk : walk 2 [(v, [w]), (w, [])] ind outd [v] [(v, w)] w = .indexErr :=
      walk_broken_indexErr 1 _ _ _ _ _ _ hw1 hw2 (by simp [dgetD, hadjw])
    have hT : totalLen [(v, [w]), (w, ([] : List Node))] = 1 := by
      simp [totalLen]
    unfold find_unitigs find_unitigsF
    rw [hT]
    show processAnchors 2 (computeAnchors (dkeys [(v, [w]), (w, [])]) ind outd).1
        [(v, [w]), (w, [])]
        (computeAnchors (dkeys [(v, [w]), (w, [])]) ind outd).2.1
        (computeAnchors (dkeys [(v, [w]), (w, [])]) ind outd).2.2 [] [] = .indexErr
    have hkeys : dkeys [(v, [w]), (w, ([] : List Node))] = [v, w] := rfl
    rw [hkeys, hA]
    simp [processAnchors, processNeighbors, dgetI, hadjv, sadd, hwalk]

/-- Witness for C8 at concrete nodes and degree maps. -/
theorem C8_broken_invariant_witness :
    walk 1 [] [(['b'], 1)] [(['b'], 1)] [['a']] [] ['b'] = .indexErr ∧
      find_unitigs [(['a'], [['b']]), (['b'], [])]
        [(['a'], 0), (['b'], 1)] [(['b'], 1)] = .indexErr :=
  ⟨C8_broken_invariant.1 0 [] [(['b'], 1)] [(['b'], 1)] [['a']] [] ['b']
      (by decide) (by decide) (by decide),
   C8_broken_invariant.2 ['a'] ['b'] [(['a'], 0), (['b'], 1)] [(['b'], 1)] 0
      (by decide) (by decide) (by decide) (by decide) (by decide)⟩

/-! ### The degree-consistency invariant of built graphs -/

/-- `x` is a node of the graph: it appears in some recorded edge, as a source
(a key of the adjacency map) or as a destination (a member of some adjacency
list, counted by `indCount`). -/
def IsNode (adj : Dict (List Node)) (x : Node) : Prop :=
  x ∈ dkeys adj ∨ 0 < indCount adj x

/-- The invariant tying the degree maps of a built graph to its adjacency
map: each degree dict holds exactly the graph's nodes as keys, `indeg[x]`
equals the number of occurrences of `x` as a destination and `outdeg[x]`
equals the length of `x`'s adjacency list. -/
structure Consistent (g : Graph) : Prop where
  ind_mem : ∀ x, IsNode g.adj x → dlookup g.indeg x = some (indCount g.adj x)
  ind_non : ∀ x, ¬IsNode g.adj x → dlookup g.indeg x = none
  out_mem : ∀ x, IsNode g.adj x → dlookup g.outdeg x = some (adjD g.adj x).length
  out_non : ∀ x, ¬IsNode g.adj x → dlookup g.outdeg x = none

theorem Consistent.ind_getD {g : Graph} (hg : Consistent g) (x : Node) :
    dgetD g.indeg x 0 = indCount g.adj x := by
  by_cases h : IsNode g.adj x
  · simp [dgetD, hg.ind_mem x h]
  · have h0 : indCount g.adj x = 0 := by
      rcases Nat.eq_zero_or_pos (indCount g.adj x) with h0 | h0
      · exact h0
      · exact absurd (Or.inr h0) h
    simp [dgetD, hg.ind_non x h, h0]

theorem Consistent.out_getD {g : Graph} (hg : Consistent g) (x : Node) :
    dgetD g.outdeg x 0 = (adjD g.adj x).length := by
  by_cases h : IsNode g.adj x
  · simp [dgetD, hg.out_mem x h]
  · have h0 : adjD g.adj x = [] := by
      unfold adjD dgetD
      cases hl : dlookup g.adj x with
      | none => rfl
      | some l =>
        have : x ∈ dkeys g.adj := by
          rw [← dlookup_isSome_iff, hl]; rfl
        exact absurd (Or.inl this) h
    simp [dgetD, hg.out_non x h, h0]

theorem dkeys_dappendV_mem (d : Dict (List Node)) (x v y : Node) :
    y ∈ dkeys (dappendV d x v) ↔ y ∈ dkeys d ∨ y = x := by
  rw [← dlookup_isSome_iff, ← dlookup_isSome_iff, dlookup_dappendV]
  by_cases hxy : x = y
  · subst hxy; simp
  · have hyx : ¬y = x := fun h => hxy h.symm
    simp [hxy, hyx]

theorem adjD_dappendV (d : Dict (List Node)) (x v y : Node) :
    adjD (dappendV d x v) y =
      if x = y then adjD d y ++ [v] else adjD d y := by
  unfold adjD dgetD
  rw [dlookup_dappendV]
  by_cases hxy : x = y
  · subst hxy; simp [dgetD]
  · simp [hxy]

theorem dgetD_dinc (d : Dict Nat) (x : Node) (n : Nat) (y : Node) :
    dgetD (dinc d x n) y 0 = if x = y then dgetD d x 0 + n else dgetD d y 0 := by
  unfold dgetD
  rw [dlookup_dinc]
  by_cases h : x = y <;> simp [h, dgetD]

theorem isNode_addEdge (adj : Dict (List Node)) (u v x : Node) :
    IsNode (dappendV adj u v) x ↔ IsNode adj x ∨ x = u ∨ x = v := by
  unfold IsNode
  rw [dkeys_dappendV_mem, indCount_dappendV]
  by_cases hxv : v = x
  · constructor
    · intro h
      exact Or.inr (Or.inr hxv.symm)
    · intro h
      right
      simp [hxv]
  · have hx2 : ¬x = v := fun h => hxv h.symm
    simp [hxv, hx2]
    tauto

theorem consistent_addEdge {g : Graph} (hg : Consistent g) (u v : Node) :
    Consistent (addEdge g u v) := by
  have hIC : ∀ x, indCount (addEdge g u v).adj x =
      indCount g.adj x + (if v = x then 1 else 0) := fun x =>
    indCount_dappendV g.adj u v x
  have hAD : ∀ x, adjD (addEdge g u v).adj x =
      if u = x then adjD g.adj x ++ [v] else adjD g.adj x := fun x =>
    adjD_dappendV g.adj u v x
  have hN : ∀ x, IsNode (addEdge g u v).adj x ↔ IsNode g.adj x ∨ x = u ∨ x = v :=
    fun x => isNode_addEdge g.adj u v x
  have hLI : ∀ x, dlookup (addEdge g u v).indeg x =
      if u = x then
        some (if v = u then indCount g.adj u + 1 else indCount g.adj u)
      else if v = x then some (indCount g.adj v + 1)
      else dlookup g.indeg x := by
    intro x
    show dlookup (dinc (dinc g.indeg v 1) u 0) x = _
    rw [dlookup_dinc]
    by_cases hux : u = x
    · rw [if_pos hux, if_pos hux]
      congr 1
      rw [dgetD_dinc]
      by_cases hvu : v = u <;> simp [hvu, hg.ind_getD]
    · rw [if_neg hux, if_neg hux, dlookup_dinc]
      by_cases hvx : v = x <;> simp [hvx, hg.ind_getD]
  have hLO : ∀ x, dlookup (addEdge g u v).outdeg x =
      if v = x then
        some (if u = v then (adjD g.adj v).length + 1 else (adjD g.adj v).length)
      else if u = x then some ((adjD g.adj u).length + 1)
      else dlookup g.outdeg x := by
    intro x
    show dlookup (dinc (dinc g.outdeg u 1) v 0) x = _
    rw [dlookup_dinc]
    by_cases hvx : v = x
    · rw [if_pos hvx, if_pos hvx]
      congr 1
      rw [dgetD_dinc]
      by_cases huv : u = v <;> simp [huv, hg.out_getD]
    · rw [if_neg hvx, if_neg hvx, dlookup_dinc]
      by_cases hux : u = x <;> simp [hux, hg.out_getD]
  constructor
  · intro x hx
    rw [hLI x, hIC x]
    by_cases hux : u = x
    · rw [if_pos hux]
      subst hux
      by_cases hvu : v = u <;> simp [hvu]
    · rw [if_neg hux]
      by_cases hvx : v = x
      · rw [if_pos hvx]
        simp [hvx]
      · rw [if_neg hvx]
        have hx0 : IsNode g.adj x := by
          rcases (hN x).mp hx with h | h | h
          · exact h
          · exact absurd h.symm hux
          · exact absurd h.symm hvx
        rw [hg.ind_mem x hx0]
        simp [hvx]
  · intro x hx
    have hux : ¬u = x := fun h => hx ((hN x).mpr (Or.inr (Or.inl h.symm)))
    have hvx : ¬v = x := fun h => hx ((hN x).mpr (Or.inr (Or.inr h.symm)))
    have hx0 : ¬IsNode g.adj x := fun h => hx ((hN x).mpr (Or.inl h))
    rw [hLI x, if_neg hux, if_neg hvx]
    exact hg.ind_non x hx0
  · intro x hx
    rw [hLO x, hAD x]
    by_cases hvx : v = x
    · rw [if_pos hvx]
      subst hvx
      by_cases huv : u = v <;> simp [huv]
    · rw [if_neg hvx]
      by_cases hux : u = x
      · rw [if_pos hux]
        simp [hux]
      · rw [if_neg hux]
        have hx0 : IsNode g.adj x := by
          rcases (hN x).mp hx with h | h | h
          · exact h
          · exact absurd h.symm hux
          · exact absurd h.symm hvx
        rw [hg.out_mem x hx0]
        simp [hux]
  · intro x hx
    have hux : ¬u = x := fun h => hx ((hN x).mpr (Or.inr (Or.inl h.symm)))
    have hvx : ¬v = x := fun h => hx ((hN x).mpr (Or.inr (Or.inr h.symm)))
    have hx0 : ¬IsNode g.adj x := fun h => hx ((hN x).mpr (Or.inl h))
    rw [hLO x, if_neg hvx, if_neg hux]
    exact hg.out_non x hx0

theorem consistent_empty : Consistent ⟨[], [], []⟩ := by
  constructor <;> intro x hx
  · rcases hx with h | h
    · simp [dkeys] at h
    · simp [indCount, vsum] at h
  · rfl
  · rcases hx with h | h
    · simp [dkeys] at h
    · simp [indCount, vsum] at h
  · rfl

theorem consistent_foldl (es : List (Node × Node)) (g : Graph)
    (hg : Consistent g) :
    Consistent (es.foldl (fun g e => addEdge g e.1 e.2) g) := by
  induction es generalizing g with
  | nil => exact hg
  | cons e t ih => exact ih _ (consistent_addEdge hg e.1 e.2)

theorem build_consistent (reads : List (List Char)) (k : Int) :
    Consistent (build_debruijn_graph reads k) := by
  unfold build_debruijn_graph
  suffices h : ∀ g : Graph, Consistent g →
      Consistent (reads.foldl
        (fun g read => (readEdges read k).foldl (fun g e => addEdge g e.1 e.2) g) g) from
    h ⟨[], [], []⟩ consistent_empty
  intro g hg
  induction reads generalizing g with
  | nil => exact hg
  | cons r t ih => exact ih _ (consistent_foldl (readEdges r k) g hg)

/-- **C5** (confirmed).  In a built graph, every node `x` that appears in
a recorded edge — as a source (nonempty adjacency list) or as a destination
(positive occurrence count `indCount`) — has an entry in both degree maps:
`indeg[x]` is exactly its number of occurrences as a destination (hence `0`
if it never played that role) and `outdeg[x]` is exactly the length of its
adjacency list (hence `0` if it is never a source). -/
theorem C5_degree_entries (reads : List (List Char)) (k : Int) (x : Node)
    (hx : adjD (build_debruijn_graph reads k).adj x ≠ [] ∨
      0 < indCount (build_debruijn_graph reads k).adj x) :
    dlookup (build_debruijn_graph reads k).indeg x =
        some (indCount (build_debruijn_graph reads k).adj x) ∧
    dlookup (build_debruijn_graph reads k).outdeg x =
        some (adjD (build_debruijn_graph reads k).adj x).length := by
  have hg := build_consistent reads k
  have hnode : IsNode (build_debruijn_graph reads k).adj x := by
    rcases hx with h | h
    · left
      rw [← dlookup_isSome_iff]
      unfold adjD dgetD at h
      cases hl : dlookup (build_debruijn_graph reads k).adj x with
      | none => rw [hl] at h; simp at h
      | some l => rfl
    · exact Or.inr h
  exact ⟨hg.ind_mem x hnode, hg.out_mem x hnode⟩

/-- Witness for C5 at `reads = ["abc"]`, `k = 1`, `x = "c"`: the node `c` is
destination-only, and gets `indeg[c] = 1`, `outdeg[c] = 0`. -/
theorem C5_degree_entries_witness :
    (adjD (build_debruijn_graph [['a', 'b', 'c']] 1).adj ['c'] ≠ [] ∨
        0 < indCount (build_debruijn_graph [['a', 'b', 'c']] 1).adj ['c']) ∧
      dlookup (build_debruijn_graph [['a', 'b', 'c']] 1).indeg ['c'] =
          some (indCount (build_debruijn_graph [['a', 'b', 'c']] 1).adj ['c']) ∧
      dlookup (build_debruijn_graph [['a', 'b', 'c']] 1).outdeg ['c'] =
          some (adjD (build_debruijn_graph [['a', 'b', 'c']] 1).adj ['c']).length :=
  ⟨by decide, C5_degree_entries [['a', 'b', 'c']] 1 ['c'] (by decide)⟩

/-! ### Consecutive pairs of a path -/

/-- The consecutive `(node, next-node)` pairs of a path. -/
def pairsOf : List Node → List (Node × Node)
  | a :: b :: rest => (a, b) :: pairsOf (b :: rest)
  | _ => []

/-- All consecutive pairs across a list of unitigs. -/
def flatPairs (U : List (List Node)) : List (Node × Node) :=
  (U.map pairsOf).flatten

theorem pairsOf_append_last (a : Node) (xs : List Node) (y : Node) :
    pairsOf (a :: (xs ++ [y])) =
      pairsOf (a :: xs) ++ [((a :: xs).getLast (by simp), y)] := by
  induction xs generalizing a with
  | nil => simp [pairsOf]
  | cons b t ih =>
    show pairsOf (a :: b :: (t ++ [y])) = _
    rw [show pairsOf (a :: b :: (t ++ [y])) =
        (a, b) :: pairsOf (b :: (t ++ [y])) from rfl, ih b]
    simp [pairsOf, List.getLast_cons]

theorem map_fst_pairsOf (a : Node) (xs : List Node) :
    (pairsOf (a :: xs)).map Prod.fst = (a :: xs).dropLast := by
  induction xs generalizing a with
  | nil => simp [pairsOf]
  | cons b t ih =>
    show ((a, b) :: pairsOf (b :: t)).map Prod.fst = _
    rw [List.map_cons, ih b]
    rfl

theorem map_snd_pairsOf (a : Node) (xs : List Node) :
    (pairsOf (a :: xs)).map Prod.snd = xs := by
  induction xs generalizing a with
  | nil => simp [pairsOf]
  | cons b t ih =>
    show ((a, b) :: pairsOf (b :: t)).map Prod.snd = _
    rw [List.map_cons, ih b]

theorem chain'_pairsOf {R : Node → Node → Prop} (a : Node) (xs : List Node) :
    List.Chain' R (a :: xs) → ∀ e ∈ pairsOf (a :: xs), R e.1 e.2 := by
  induction xs generalizing a with
  | nil => intro _ e he; simp [pairsOf] at he
  | cons b t ih =>
    intro h e he
    rw [List.chain'_cons] at h
    rw [show pairsOf (a :: b :: t) = (a, b) :: pairsOf (b :: t) from rfl,
      List.mem_cons] at he
    rcases he with he | he
    · subst he; exact h.1
    · exact ih b h.2 e he

theorem pairs_pred_or_head (a : Node) (xs : List Node) (e : Node × Node) :
    e ∈ pairsOf (a :: xs) → e.1 = a ∨ ∃ c, (c, e.1) ∈ pairsOf (a :: xs) := by
  induction xs generalizing a with
  | nil => intro he; simp [pairsOf] at he
  | cons b t ih =>
    intro he
    rw [show pairsOf (a :: b :: t) = (a, b) :: pairsOf (b :: t) from rfl,
      List.mem_cons] at he
    rcases he with he | he
    · subst he; exact Or.inl rfl
    · rcases ih b he with h1 | ⟨c, hc⟩
      · right
        refine ⟨a, ?_⟩
        rw [show pairsOf (a :: b :: t) = (a, b) :: pairsOf (b :: t) from rfl]
        rw [← h1]
        simp
      · right
        exact ⟨c, List.mem_cons_of_mem _ hc⟩

theorem pairs_succ_or_last (a : Node) (xs : List Node) (e : Node × Node) :
    e ∈ pairsOf (a :: xs) →
      (∃ c, (e.2, c) ∈ pairsOf (a :: xs)) ∨
        (a :: xs).getLast (by simp) = e.2 := by
  induction xs generalizing a with
  | nil => intro he; simp [pairsOf] at he
  | cons b t ih =>
    intro he
    rw [show pairsOf (a :: b :: t) = (a, b) :: pairsOf (b :: t) from rfl,
      List.mem_cons] at he
    rcases he with he | he
    · subst he
      cases t with
      | nil => right; rfl
      | cons c t2 =>
        left
        exact ⟨c, List.mem_cons_of_mem _ (by simp [pairsOf])⟩
    · rcases ih b he with ⟨c, hc⟩ | h1
      · left
        exact ⟨c, List.mem_cons_of_mem _ hc⟩
      · right
        rw [List.getLast_cons (by simp)]
        exact h1

theorem pairsOf_nodup (a : Node) (xs : List Node)
    (h : ((a :: xs).dropLast).Nodup) : (pairsOf (a :: xs)).Nodup := by
  apply List.Nodup.of_map Prod.fst
  rw [map_fst_pairsOf]
  exact h

theorem last_pair_mem (a : Node) (xs : List Node) (y : Node) :
    (((a :: xs).getLast (by simp)), y) ∈ pairsOf (a :: (xs ++ [y])) := by
  rw [pairsOf_append_last]
  simp

theorem occ_two (b : Node) (P : List (Node × Node)) (hnd : P.Nodup)
    (h2 : 2 ≤ occ b (P.map Prod.snd)) :
    ∃ e1 ∈ P, ∃ e2 ∈ P, e1 ≠ e2 ∧ e1.2 = b ∧ e2.2 = b := by
  induction P with
  | nil => simp [occ] at h2
  | cons e t ih =>
    rw [List.map_cons] at h2
    rw [List.nodup_cons] at hnd
    by_cases he : e.2 = b
    · have h1 : 0 < occ b (t.map Prod.snd) := by
        rw [show occ b (e.2 :: t.map Prod.snd) =
          (if e.2 = b then 1 else 0) + occ b (t.map Prod.snd) from rfl,
          if_pos he] at h2
        omega
      have hm : b ∈ t.map Prod.snd := (occ_pos_iff_mem _ _).mp h1
      obtain ⟨e2, he2m, he2⟩ := List.mem_map.mp hm
      refine ⟨e, by simp, e2, List.mem_cons_of_mem _ he2m, ?_, he, he2⟩
      intro hee
      rw [hee] at hnd
      exact hnd.1 he2m
    · rw [show occ b (e.2 :: t.map Prod.snd) =
        (if e.2 = b then 1 else 0) + occ b (t.map Prod.snd) from rfl,
        if_neg he] at h2
      obtain ⟨e1, h1m, e2, h2m, hne, hb1, hb2⟩ := ih hnd.2 (by omega)
      exact ⟨e1, List.mem_cons_of_mem _ h1m, e2, List.mem_cons_of_mem _ h2m,
        hne, hb1, hb2⟩

/-! ### Destinations and multiplicity bounds -/

/-- All edge destinations, with multiplicity, in adjacency order. -/
def dsts (adj : Dict (List Node)) : List Node :=
  (adj.map fun p => p.2).flatten

theorem vsum_le_of_mem {α : Type} (f : α → Nat) {d : Dict α}
    {p : Node × α} (hp : p ∈ d) : f p.2 ≤ vsum f d := by
  induction d with
  | nil => simp at hp
  | cons q t ih =>
    rw [List.mem_cons] at hp
    rcases hp with hp | hp
    · subst hp; simp [vsum]
    · have := ih hp
      simp [vsum] at this ⊢
      omega

theorem mem_dsts {adj : Dict (List Node)} {x u : Node}
    (hx : u ∈ adjD adj x) : u ∈ dsts adj := by
  unfold adjD dgetD at hx
  cases hl : dlookup adj x with
  | none => rw [hl] at hx; simp at hx
  | some lx =>
    rw [hl] at hx
    simp at hx
    have hm := dlookup_mem hl
    unfold dsts
    rw [List.mem_flatten]
    exact ⟨lx, List.mem_map.mpr ⟨(x, lx), hm, rfl⟩, hx⟩

theorem mem_dsts_indCount {adj : Dict (List Node)} {u : Node}
    (hu : u ∈ dsts adj) : 0 < indCount adj u := by
  unfold dsts at hu
  rw [List.mem_flatten] at hu
  obtain ⟨l, hl, hul⟩ := hu
  obtain ⟨p, hp, rfl⟩ := List.mem_map.mp hl
  have h1 : 0 < occ u p.2 := (occ_pos_iff_mem _ _).mpr hul
  have h2 := vsum_le_of_mem (occ u) hp
  unfold indCount
  omega

theorem indCount_pos {adj : Dict (List Node)} {u x : Node}
    (hx : u ∈ adjD adj x) : 0 < indCount adj u :=
  mem_dsts_indCount (mem_dsts hx)

theorem indCount_two {adj : Dict (List Node)} {x y u : Node} (hxy : x ≠ y)
    (hx : u ∈ adjD adj x) (hy : u ∈ adjD adj y) : 2 ≤ indCount adj u := by
  cases hlx : dlookup adj x with
  | none => unfold adjD dgetD at hx; rw [hlx] at hx; simp at hx
  | some lx =>
    cases hly : dlookup adj y with
    | none => unfold adjD dgetD at hy; rw [hly] at hy; simp at hy
    | some ly =>
      have hx2 : u ∈ lx := by
        unfold adjD dgetD at hx; rw [hlx] at hx; simpa using hx
      have hy2 : u ∈ ly := by
        unfold adjD dgetD at hy; rw [hly] at hy; simpa using hy
      have hv := vsum_two_le (occ u) hlx hly hxy
      have o1 : 0 < occ u lx := (occ_pos_iff_mem _ _).mpr hx2
      have o2 : 0 < occ u ly := (occ_pos_iff_mem _ _).mpr hy2
      unfold indCount
      omega

theorem dsts_length (adj : Dict (List Node)) :
    (dsts adj).length = totalLen adj := by
  unfold dsts totalLen
  rw [List.length_flatten, List.map_map]
  rfl

theorem nodup_subset_dedup_length {l l' : List Node} (hnd : l.Nodup)
    (hsub : ∀ x ∈ l, x ∈ l') : l.length ≤ l'.dedup.length := by
  have h1 : l.toFinset.card = l.length := List.toFinset_card_of_nodup hnd
  have h2 : l'.toFinset.card = l'.dedup.length := List.card_toFinset l'
  have h3 : l.toFinset ⊆ l'.toFinset := by
    intro x hx
    rw [List.mem_toFinset] at hx ⊢
    exact hsub x hx
  have := Finset.card_le_card h3
  omega

/-! ### Interior nodes, anchors and reachability -/

/-- An interior node of a chain: exactly one incoming edge occurrence and
exactly one outgoing edge occurrence (in a consistent graph these are the
values the code reads from the degree maps). -/
def Interior (g : Graph) (x : Node) : Prop :=
  indCount g.adj x = 1 ∧ (adjD g.adj x).length = 1

instance (g : Graph) (x : Node) : Decidable (Interior g x) := by
  unfold Interior; infer_instance

/-- Anchor-reachability: the nodes from which the extractor's traversal can
depart.  An anchor (an adjacency key that is not interior) is reachable, and
reachability propagates along edges into interior nodes. -/
inductive Reach (g : Graph) : Node → Prop where
  | base (v : Node) : v ∈ dkeys g.adj → ¬Interior g v → Reach g v
  | step (u v : Node) : Reach g u → v ∈ adjD g.adj u → Interior g v → Reach g v

theorem dgetI_hit {α : Type} {d : Dict α} {x : Node} {v : α}
    (h : dlookup d x = some v) (dflt : α) : dgetI d x dflt = (v, d) := by
  simp [dgetI, h]

theorem isNode_of_mem_dsts {g : Graph} {u : Node} (hu : u ∈ dsts g.adj) :
    IsNode g.adj u := Or.inr (mem_dsts_indCount hu)

theorem adjD_lookup_of_interior {g : Graph} (hg : Consistent g) {u : Node}
    (hI : Interior g u) : dlookup g.adj u = some (adjD g.adj u) := by
  cases hl : dlookup g.adj u with
  | none =>
    exfalso
    have h0 : adjD g.adj u = [] := by unfold adjD dgetD; rw [hl]; rfl
    have h2 := hI.2
    rw [h0] at h2
    simp at h2
  | some l => unfold adjD dgetD; rw [hl]; simp

/-- On a consistent graph, evaluating the while condition at a node performs
no insertion and decides `Interior`. -/
theorem whileCond_consistent {g : Graph} (hg : Consistent g) {u : Node}
    (hu : IsNode g.adj u) :
    whileCond g.indeg g.outdeg u =
      (decide (Interior g u), g.indeg, g.outdeg) := by
  have h1 := hg.ind_mem u hu
  have h2 := hg.out_mem u hu
  unfold whileCond
  rw [dgetI_hit h1]
  by_cases hc : indCount g.adj u = 1
  · rw [if_pos (by simpa using hc)]
    rw [dgetI_hit h2]
    by_cases hd : (adjD g.adj u).length = 1
    · have : Interior g u := ⟨hc, hd⟩
      simp [this, hd]
    · have : ¬Interior g u := fun h => hd h.2
      simp [this, hd]
  · rw [if_neg (by simpa using hc)]
    have : ¬Interior g u := fun h => hc h.1
    simp [this]

/-- On a consistent graph, one anchor test performs no insertion and decides
`¬Interior` (the third clause of the Python condition is unreachable). -/
theorem anchorCheck_consistent {g : Graph} (hg : Consistent g) {v : Node}
    (hv : IsNode g.adj v) :
    anchorCheck g.indeg g.outdeg v =
      (decide (¬Interior g v), g.indeg, g.outdeg) := by
  have h1 := hg.ind_mem v hv
  have h2 := hg.out_mem v hv
  unfold anchorCheck
  rw [dgetI_hit h1]
  by_cases hc : indCount g.adj v = 1
  · rw [if_neg (by simpa using hc)]
    rw [dgetI_hit h2]
    by_cases hd : (adjD g.adj v).length = 1
    · have : Interior g v := ⟨hc, hd⟩
      simp [this, hd]
    · have : ¬Interior g v := fun h => hd h.2
      simp [this, hd]
  · have : ¬Interior g v := fun h => hc h.1
    simp [hc, this]

/-- On a consistent graph the anchors comprehension is a pure filter of the
adjacency keys and leaves the degree dicts untouched. -/
theorem computeAnchors_consistent {g : Graph} (hg : Consistent g) :
    ∀ ks : List Node, (∀ v ∈ ks, IsNode g.adj v) →
      computeAnchors ks g.indeg g.outdeg =
        (ks.filter fun v => decide (¬Interior g v), g.indeg, g.outdeg) := by
  intro ks
  induction ks with
  | nil => intro _; rfl
  | cons v rest ih =>
    intro hv
    have h1 := anchorCheck_consistent hg (hv v (by simp))
    have h2 := ih fun x hx => hv x (by simp [hx])
    rw [show computeAnchors (v :: rest) g.indeg g.outdeg =
      (if (anchorCheck g.indeg g.outdeg v).1 then
          v :: (computeAnchors rest (anchorCheck g.indeg g.outdeg v).2.1
            (anchorCheck g.indeg g.outdeg v).2.2).1
        else (computeAnchors rest (anchorCheck g.indeg g.outdeg v).2.1
          (anchorCheck g.indeg g.outdeg v).2.2).1,
        (computeAnchors rest (anchorCheck g.indeg g.outdeg v).2.1
          (anchorCheck g.indeg g.outdeg v).2.2).2) from rfl, h1]
    simp only [h2, List.filter_cons]

/-! ### Chain helper lemmas -/

theorem getLast_snoc (l : List Node) (a : Node) :
    (l ++ [a]).getLast (by simp) = a := by
  simp [List.getLast_append]

theorem chain'_last_edge {R : Node → Node → Prop} (a : Node) (xs : List Node)
    (u : Node) (h : List.Chain' R (a :: xs ++ [u])) :
    R ((a :: xs).getLast (by simp)) u := by
  rw [show a :: xs ++ [u] = (a :: xs) ++ [u] from rfl, List.chain'_append] at h
  obtain ⟨-, -, h3⟩ := h
  apply h3
  · rw [List.getLast?_eq_getLast (a :: xs) (by simp)]
    simp
  · simp

theorem chain'_snoc {R : Node → Node → Prop} (l : List Node) (u u2 : Node)
    (h : List.Chain' R (l ++ [u])) (h2 : R u u2) :
    List.Chain' R ((l ++ [u]) ++ [u2]) := by
  rw [List.chain'_append]
  refine ⟨h, List.chain'_singleton _, ?_⟩
  intro x hx y hy
  simp at hy
  subst hy
  have : (l ++ [u]).getLast? = some u := by
    rw [List.getLast?_eq_getLast (l ++ [u]) (by simp), getLast_snoc]
  rw [this] at hx
  simp at hx
  subst hx
  exact h2

/-! ### Last element with default, and snoc forms of the pair lemmas -/

/-- The last node of the path `v0 :: us`. -/
def lastN (v0 : Node) : List Node → Node
  | [] => v0
  | b :: t => lastN b t

theorem lastN_snoc (v0 : Node) (us : List Node) (u : Node) :
    lastN v0 (us ++ [u]) = u := by
  induction us generalizing v0 with
  | nil => rfl
  | cons b t ih =>
    show lastN b (t ++ [u]) = u
    exact ih b

theorem pairsOf_snoc (a : Node) (xs : List Node) (y : Node) :
    pairsOf (a :: (xs ++ [y])) = pairsOf (a :: xs) ++ [(lastN a xs, y)] := by
  induction xs generalizing a with
  | nil => simp [pairsOf, lastN]
  | cons b t ih =>
    show pairsOf (a :: b :: (t ++ [y])) = _
    rw [show pairsOf (a :: b :: (t ++ [y])) =
      (a, b) :: pairsOf (b :: (t ++ [y])) from rfl, ih b]
    rfl

theorem chain'_lastN_edge {R : Node → Node → Prop} (a : Node) (xs : List Node)
    (u : Node) (h : List.Chain' R (a :: xs ++ [u])) : R (lastN a xs) u := by
  induction xs generalizing a with
  | nil =>
    rw [show a :: ([] : List Node) ++ [u] = [a, u] from rfl,
      List.chain'_pair] at h
    exact h
  | cons b t ih =>
    rw [show a :: (b :: t) ++ [u] = a :: (b :: (t ++ [u])) from rfl,
      List.chain'_cons] at h
    exact ih b h.2

theorem lastN_pair_mem (a : Node) (xs : List Node) (y : Node) :
    (lastN a xs, y) ∈ pairsOf (a :: (xs ++ [y])) := by
  rw [pairsOf_snoc]
  simp

theorem pairs_succ_or_lastN (a : Node) (xs : List Node) (e : Node × Node) :
    e ∈ pairsOf (a :: xs) →
      (∃ c, (e.2, c) ∈ pairsOf (a :: xs)) ∨ lastN a xs = e.2 := by
  induction xs generalizing a with
  | nil => intro he; simp [pairsOf] at he
  | cons b t ih =>
    intro he
    rw [show pairsOf (a :: b :: t) = (a, b) :: pairsOf (b :: t) from rfl,
      List.mem_cons] at he
    rcases he with he | he
    · subst he
      cases t with
      | nil => right; rfl
      | cons c t2 =>
        left
        exact ⟨c, List.mem_cons_of_mem _ (by simp [pairsOf])⟩
    · rcases ih b he with ⟨c, hc⟩ | h1
      · left
        exact ⟨c, List.mem_cons_of_mem _ hc⟩
      · right
        exact h1

/-! ### Reduction lemmas for the traversal on a consistent graph -/

/-- Maximum fuel the traversal can consume on a consistent graph: the number
of distinct edge destinations, plus one. -/
def Dbound (g : Graph) : Nat := ((dsts g.adj).dedup).length

theorem walk_succ_eq (fuel : Nat) (adj : Dict (List Node)) (ind outd : Dict Nat)
    (path : List Node) (visited : List (Node × Node)) (u : Node) :
    walk (fuel + 1) adj ind outd path visited u =
      (let c := whileCond ind outd u
       if c.1 then
         let a := dgetI adj u []
         match a.1 with
         | [] => WalkRes.indexErr
         | nw :: _ =>
           walk fuel a.2 c.2.1 c.2.2 (path ++ [u]) (sadd visited (u, nw)) nw
       else WalkRes.ok (path ++ [u]) visited adj c.2.1 c.2.2) := rfl

theorem walk_step_interior {g : Graph} (hg : Consistent g) {u nw : Node}
    (hI : Interior g u) (hu : IsNode g.adj u)
    (hlkA : dlookup g.adj u = some [nw]) (f : Nat) (path : List Node)
    (visited : List (Node × Node)) :
    walk (f + 1) g.adj g.indeg g.outdeg path visited u =
      walk f g.adj g.indeg g.outdeg (path ++ [u]) (sadd visited (u, nw)) nw := by
  rw [walk_succ_eq, whileCond_consistent hg hu, dgetI_hit hlkA]
  simp [hI]

theorem walk_step_exit {g : Graph} (hg : Consistent g) {u : Node}
    (hI : ¬Interior g u) (hu : IsNode g.adj u) (f : Nat) (path : List Node)
    (visited : List (Node × Node)) :
    walk (f + 1) g.adj g.indeg g.outdeg path visited u =
      WalkRes.ok (path ++ [u]) visited g.adj g.indeg g.outdeg := by
  rw [walk_succ_eq, whileCond_consistent hg hu]
  simp [hI]

/-! ### Specification of the traversal loop on a consistent graph -/

/-- Invariant of the `while` loop of `find_unitigs` on a consistent graph.
`v0` is the anchor the walk started from, `us` the interior nodes appended to
the path so far, `u` the current node, `V0` the visited set as it was before
this walk started. -/
structure WalkInv (g : Graph) (V0 : List (Node × Node)) (v0 : Node)
    (us : List Node) (visited : List (Node × Node)) (u : Node) : Prop where
  anchor_mem : v0 ∈ dkeys g.adj
  anchor_not : ¬Interior g v0
  us_nodup : us.Nodup
  us_not_v0 : v0 ∉ us
  us_interior : ∀ x ∈ us, Interior g x
  us_reach : ∀ x ∈ us, Reach g x
  us_dst : ∀ x ∈ us, x ∈ dsts g.adj
  u_dst : u ∈ dsts g.adj
  chain : List.Chain' (fun a b => b ∈ adjD g.adj a) (v0 :: us ++ [u])
  reach_last : Reach g (lastN v0 us)
  vis_eq : ∀ e, e ∈ visited ↔ e ∈ V0 ∨ e ∈ pairsOf (v0 :: us ++ [u])
  fresh : ∀ e ∈ pairsOf (v0 :: us ++ [u]), e ∉ V0

/-- What the `while` loop guarantees about its result path `p2` and final
visited set `vis2`. -/
structure WalkOut (g : Graph) (V0 : List (Node × Node)) (v0 : Node)
    (p2 : List Node) (vis2 : List (Node × Node)) : Prop where
  shape : ∃ us2 uf, p2 = v0 :: us2 ++ [uf] ∧ us2.Nodup ∧ v0 ∉ us2 ∧
    (∀ x ∈ us2, Interior g x) ∧ (∀ x ∈ us2, Reach g x) ∧ ¬Interior g uf
  chain2 : List.Chain' (fun a b => b ∈ adjD g.adj a) p2
  vis2_eq : ∀ e, e ∈ vis2 ↔ e ∈ V0 ∨ e ∈ pairsOf p2
  pairs_nodup : (pairsOf p2).Nodup
  pairs_fresh : ∀ e ∈ pairsOf p2, e ∉ V0
  pairs_reach : ∀ e ∈ pairsOf p2, Reach g e.1

theorem walk_spec {g : Graph} (hg : Consistent g) (V0 : List (Node × Node))
    (v0 : Node) (hV0e : ∀ e ∈ V0, e.2 ∈ adjD g.adj e.1)
    (hV0p : ∀ e ∈ V0, Interior g e.1 → ∃ x, (x, e.1) ∈ V0) :
    ∀ (n : Nat) (us : List Node) (visited : List (Node × Node)) (u : Node),
      WalkInv g V0 v0 us visited u →
      Dbound g + 1 ≤ us.length + n →
      ∃ p2 vis2, WalkOut g V0 v0 p2 vis2 ∧
        (∀ e ∈ visited, e ∈ vis2) ∧
        ∀ fuel, Dbound g + 1 ≤ us.length + fuel →
          walk fuel g.adj g.indeg g.outdeg (v0 :: us) visited u =
            WalkRes.ok p2 vis2 g.adj g.indeg g.outdeg := by
  intro n
  induction n with
  | zero =>
    intro us visited u hinv hn
    exfalso
    have hle : us.length ≤ Dbound g :=
      nodup_subset_dedup_length hinv.us_nodup hinv.us_dst
    omega
  | succ n ih =>
    intro us visited u hinv hn
    have hle : us.length ≤ Dbound g :=
      nodup_subset_dedup_length hinv.us_nodup hinv.us_dst
    have huN : IsNode g.adj u := isNode_of_mem_dsts hinv.u_dst
    have hlastE : u ∈ adjD g.adj (lastN v0 us) :=
      chain'_lastN_edge v0 us u hinv.chain
    have hndPairs : (pairsOf (v0 :: us ++ [u])).Nodup := by
      apply pairsOf_nodup
      show ((v0 :: us) ++ [u]).dropLast.Nodup
      rw [List.dropLast_concat]
      exact List.nodup_cons.mpr ⟨hinv.us_not_v0, hinv.us_nodup⟩
    by_cases hI : Interior g u
    · -- the while condition holds: take one more step
      obtain ⟨nw, hnw⟩ := List.length_eq_one.mp hI.2
      have hlkA : dlookup g.adj u = some [nw] := by
        have h0 := adjD_lookup_of_interior hg hI
        rw [hnw] at h0
        exact h0
      have hnwm : nw ∈ adjD g.adj u := by rw [hnw]; simp
      have hu_v0 : u ≠ v0 := fun h => hinv.anchor_not (h ▸ hI)
      -- the current node was not visited before (no revisit)
      have hu_us : u ∉ us := by
        intro hmem
        have hsnd : (pairsOf (v0 :: us ++ [u])).map Prod.snd = us ++ [u] :=
          map_snd_pairsOf v0 (us ++ [u])
        have hocc : 2 ≤ occ u ((pairsOf (v0 :: us ++ [u])).map Prod.snd) := by
          rw [hsnd, occ_append]
          have h1 : 0 < occ u us := (occ_pos_iff_mem _ _).mpr hmem
          have h2 : occ u [u] = 1 := by simp [occ]
          omega
        obtain ⟨e1, h1m, e2, h2m, hne, hb1, hb2⟩ := occ_two u _ hndPairs hocc
        have hc1 := chain'_pairsOf v0 (us ++ [u]) hinv.chain e1 h1m
        have hc2 := chain'_pairsOf v0 (us ++ [u]) hinv.chain e2 h2m
        rw [hb1] at hc1
        rw [hb2] at hc2
        have hne1 : e1.1 ≠ e2.1 := by
          intro hh
          exact hne (Prod.ext hh (hb1.trans hb2.symm))
        have h2c := indCount_two hne1 hc1 hc2
        have hI1 := hI.1
        omega
      -- the new edge (u, nw) is fresh
      have hfreshP : (u, nw) ∉ pairsOf (v0 :: us ++ [u]) := by
        intro hmem
        have hfst : ((u, nw) : Node × Node).1 ∈
            (pairsOf (v0 :: (us ++ [u]))).map Prod.fst :=
          List.mem_map.mpr ⟨(u, nw), hmem, rfl⟩
        rw [map_fst_pairsOf v0 (us ++ [u])] at hfst
        have hfst2 : u ∈ ((v0 :: us) ++ [u]).dropLast := hfst
        rw [List.dropLast_concat] at hfst2
        rcases List.mem_cons.mp hfst2 with h | h
        · exact hu_v0 h
        · exact hu_us h
      have hlastP : (lastN v0 us, u) ∈ pairsOf (v0 :: us ++ [u]) :=
        lastN_pair_mem v0 us u
      have hfreshV0 : (u, nw) ∉ V0 := by
        intro hmem
        obtain ⟨x, hx⟩ := hV0p (u, nw) hmem hI
        have hxadj : u ∈ adjD g.adj x := hV0e (x, u) hx
        by_cases hxl : x = lastN v0 us
        · rw [hxl] at hx
          exact hinv.fresh _ hlastP hx
        · have h2c := indCount_two hxl hxadj hlastE
          have hI1 := hI.1
          omega
      have hfreshVis : (u, nw) ∉ visited := by
        intro hmem
        rcases (hinv.vis_eq (u, nw)).mp hmem with h | h
        · exact hfreshV0 h
        · exact hfreshP h
      have hreachU : Reach g u := Reach.step _ _ hinv.reach_last hlastE hI
      -- the extended invariant
      have hpairs2 : pairsOf (v0 :: (us ++ [u]) ++ [nw]) =
          pairsOf (v0 :: us ++ [u]) ++ [(u, nw)] := by
        have h1 : pairsOf (v0 :: ((us ++ [u]) ++ [nw])) =
            pairsOf (v0 :: (us ++ [u])) ++ [(lastN v0 (us ++ [u]), nw)] :=
          pairsOf_snoc v0 (us ++ [u]) nw
        rw [lastN_snoc] at h1
        exact h1
      have hinv2 : WalkInv g V0 v0 (us ++ [u]) (visited ++ [(u, nw)]) nw := by
        refine ⟨hinv.anchor_mem, hinv.anchor_not, ?_, ?_, ?_, ?_, ?_,
          mem_dsts hnwm, ?_, ?_, ?_, ?_⟩
        · rw [List.nodup_append]
          refine ⟨hinv.us_nodup, by simp, ?_⟩
          intro x hx hxu
          simp at hxu
          rw [hxu] at hx
          exact hu_us hx
        · intro h
          rcases List.mem_append.mp h with h | h
          · exact hinv.us_not_v0 h
          · simp at h
            exact hu_v0 h.symm
        · intro x hx
          rcases List.mem_append.mp hx with h | h
          · exact hinv.us_interior x h
          · simp at h
            rw [h]
            exact hI
        · intro x hx
          rcases List.mem_append.mp hx with h | h
          · exact hinv.us_reach x h
          · simp at h
            rw [h]
            exact hreachU
        · intro x hx
          rcases List.mem_append.mp hx with h | h
          · exact hinv.us_dst x h
          · simp at h
            rw [h]
            exact hinv.u_dst
        · exact chain'_snoc (v0 :: us) u nw hinv.chain hnwm
        · rw [lastN_snoc]
          exact hreachU
        · intro e
          rw [hpairs2, List.mem_append, List.mem_append]
          constructor
          · rintro (h | h)
            · rcases (hinv.vis_eq e).mp h with h2 | h2
              · exact Or.inl h2
              · exact Or.inr (Or.inl h2)
            · simp at h
              exact Or.inr (Or.inr (by simp [h]))
          · rintro (h | h | h)
            · exact Or.inl ((hinv.vis_eq e).mpr (Or.inl h))
            · exact Or.inl ((hinv.vis_eq e).mpr (Or.inr h))
            · simp at h
              exact Or.inr (by simp [h])
        · intro e he
          rw [hpairs2] at he
          rcases List.mem_append.mp he with h | h
          · exact hinv.fresh e h
          · simp at h
            rw [h]
            exact hfreshV0
      obtain ⟨p2, vis2, hout, hmono, heq⟩ :=
        ih (us ++ [u]) (visited ++ [(u, nw)]) nw hinv2
          (by rw [List.length_append]; simp; omega)
      refine ⟨p2, vis2, hout, ?_, ?_⟩
      · intro e he
        exact hmono e (by simp [he])
      · intro fuel hfuel
        obtain ⟨f, rfl⟩ : ∃ f, fuel = f + 1 := ⟨fuel - 1, by omega⟩
        rw [walk_step_interior hg hI huN hlkA f (v0 :: us) visited]
        have hsadd : sadd visited (u, nw) = visited ++ [(u, nw)] := by
          unfold sadd
          rw [if_neg hfreshVis]
        rw [hsadd]
        exact heq f (by rw [List.length_append]; simp; omega)
    · -- the while condition fails: exit and record the path
      refine ⟨v0 :: us ++ [u], visited, ?_, fun e he => he, ?_⟩
      · refine ⟨⟨us, u, rfl, hinv.us_nodup, hinv.us_not_v0, hinv.us_interior,
          hinv.us_reach, hI⟩, hinv.chain, hinv.vis_eq, hndPairs, hinv.fresh, ?_⟩
        intro e he
        have hfst : e.1 ∈ (pairsOf (v0 :: (us ++ [u]))).map Prod.fst :=
          List.mem_map.mpr ⟨e, he, rfl⟩
        rw [map_fst_pairsOf v0 (us ++ [u])] at hfst
        have hfst2 : e.1 ∈ ((v0 :: us) ++ [u]).dropLast := hfst
        rw [List.dropLast_concat] at hfst2
        rcases List.mem_cons.mp hfst2 with h | h
        · rw [h]
          exact Reach.base v0 hinv.anchor_mem hinv.anchor_not
        · exact hinv.us_reach e.1 h
      · intro fuel hfuel
        obtain ⟨f, rfl⟩ : ∃ f, fuel = f + 1 := ⟨fuel - 1, by omega⟩
        exact walk_step_exit hg hI huN f (v0 :: us) visited

/-! ### Invariant of the anchor/neighbor loops -/

/-- The invariant relating the visited-edge set to the unitigs emitted so
far, on a consistent graph. -/
structure PState (g : Graph) (visited : List (Node × Node))
    (unitigs : List (List Node)) : Prop where
  vis_pairs : ∀ e, e ∈ visited ↔ e ∈ flatPairs unitigs
  pairs_nd : (flatPairs unitigs).Nodup
  edges : ∀ e ∈ visited, e.2 ∈ adjD g.adj e.1
  reach : ∀ e ∈ visited, Reach g e.1
  pred : ∀ e ∈ visited, Interior g e.1 → ∃ x, (x, e.1) ∈ visited
  succ : ∀ e ∈ visited, Interior g e.2 →
    (e.2, (adjD g.adj e.2).headI) ∈ visited

theorem pstate_extend {g : Graph} {visited vis2 : List (Node × Node)}
    {unitigs : List (List Node)} {p2 : List Node} {v0 : Node}
    (hps : PState g visited unitigs) (hv0a : ¬Interior g v0)
    (hout : WalkOut g visited v0 p2 vis2) :
    PState g vis2 (unitigs ++ [p2]) := by
  obtain ⟨us2, uf, hp2, hnd2, hnv0, hint2, hrea2, hnuf⟩ := hout.shape
  have hflat : flatPairs (unitigs ++ [p2]) = flatPairs unitigs ++ pairsOf p2 := by
    simp [flatPairs]
  have hch : List.Chain' (fun a b => b ∈ adjD g.adj a) (v0 :: (us2 ++ [uf])) := by
    have hc0 := hout.chain2
    rw [hp2] at hc0
    exact hc0
  constructor
  · intro e
    rw [hflat]
    have h1 := hout.vis2_eq e
    have h2 := hps.vis_pairs e
    constructor
    · intro h
      rcases h1.mp h with h | h
      · exact List.mem_append.mpr (Or.inl (h2.mp h))
      · exact List.mem_append.mpr (Or.inr h)
    · intro h
      rcases List.mem_append.mp h with h | h
      · exact h1.mpr (Or.inl (h2.mpr h))
      · exact h1.mpr (Or.inr h)
  · rw [hflat, List.nodup_append]
    refine ⟨hps.pairs_nd, hout.pairs_nodup, ?_⟩
    intro e he he2
    exact hout.pairs_fresh e he2 ((hps.vis_pairs e).mpr he)
  · intro e he
    rcases (hout.vis2_eq e).mp he with h | h
    · exact hps.edges e h
    · have he2 : e ∈ pairsOf (v0 :: (us2 ++ [uf])) := by rw [hp2] at h; exact h
      exact chain'_pairsOf v0 (us2 ++ [uf]) hch e he2
  · intro e he
    rcases (hout.vis2_eq e).mp he with h | h
    · exact hps.reach e h
    · exact hout.pairs_reach e h
  · intro e he hIe
    rcases (hout.vis2_eq e).mp he with h | h
    · obtain ⟨x, hx⟩ := hps.pred e h hIe
      exact ⟨x, (hout.vis2_eq (x, e.1)).mpr (Or.inl hx)⟩
    · have he2 : e ∈ pairsOf (v0 :: (us2 ++ [uf])) := by rw [hp2] at h; exact h
      rcases pairs_pred_or_head v0 (us2 ++ [uf]) e he2 with h1 | ⟨c, hc⟩
      · exfalso
        rw [h1] at hIe
        exact hv0a hIe
      · refine ⟨c, (hout.vis2_eq (c, e.1)).mpr (Or.inr ?_)⟩
        rw [hp2]
        exact hc
  · intro e he hIe
    rcases (hout.vis2_eq e).mp he with h | h
    · exact (hout.vis2_eq _).mpr (Or.inl (hps.succ e h hIe))
    · have he2 : e ∈ pairsOf (v0 :: (us2 ++ [uf])) := by rw [hp2] at h; exact h
      rcases pairs_succ_or_lastN v0 (us2 ++ [uf]) e he2 with ⟨c, hc⟩ | h1
      · have hcadj : c ∈ adjD g.adj e.2 :=
          chain'_pairsOf v0 (us2 ++ [uf]) hch (e.2, c) hc
        obtain ⟨z, hz⟩ := List.length_eq_one.mp hIe.2
        have hcz : c = z := by
          rw [hz] at hcadj
          simpa using hcadj
        have hhead : (adjD g.adj e.2).headI = c := by rw [hz, hcz]; rfl
        rw [hhead]
        refine (hout.vis2_eq _).mpr (Or.inr ?_)
        rw [hp2]
        exact hc
      · exfalso
        rw [lastN_snoc] at h1
        rw [← h1] at hIe
        exact hnuf hIe

theorem processNeighbors_cons_eq (fuel : Nat) (v0 w : Node) (rest : List Node)
    (adj : Dict (List Node)) (ind outd : Dict Nat)
    (visited : List (Node × Node)) (unitigs : List (List Node)) :
    processNeighbors fuel v0 (w :: rest) adj ind outd visited unitigs =
      if (v0, w) ∈ visited then
        processNeighbors fuel v0 rest adj ind outd visited unitigs
      else
        match walk fuel adj ind outd [v0] (sadd visited (v0, w)) w with
        | .ok path vis adj2 ind2 outd2 =>
          processNeighbors fuel v0 rest adj2 ind2 outd2 vis (unitigs ++ [path])
        | .indexErr => .indexErr
        | .fuelOut => .fuelOut := rfl

theorem processAnchors_cons_eq (fuel : Nat) (v : Node) (rest : List Node)
    (adj : Dict (List Node)) (ind outd : Dict Nat)
    (visited : List (Node × Node)) (unitigs : List (List Node)) :
    processAnchors fuel (v :: rest) adj ind outd visited unitigs =
      match processNeighbors fuel v (dgetI adj v []).1 (dgetI adj v []).2
          ind outd visited unitigs with
      | .ok adj2 ind2 outd2 vis uni =>
        processAnchors fuel rest adj2 ind2 outd2 vis uni
      | .indexErr => .indexErr
      | .fuelOut => .fuelOut := rfl

theorem processNeighbors_spec {g : Graph} (hg : Consistent g) (v0 : Node)
    (hv0k : v0 ∈ dkeys g.adj) (hv0a : ¬Interior g v0) :
    ∀ (ws : List Node) (visited : List (Node × Node))
      (unitigs : List (List Node)),
      (∀ w ∈ ws, w ∈ adjD g.adj v0) →
      PState g visited unitigs →
      ∃ vis2 uni2, PState g vis2 uni2 ∧
        (∀ e ∈ visited, e ∈ vis2) ∧
        (∃ t, uni2 = unitigs ++ t) ∧
        (∀ w ∈ ws, (v0, w) ∈ vis2) ∧
        ∀ fuel, Dbound g + 1 ≤ fuel →
          processNeighbors fuel v0 ws g.adj g.indeg g.outdeg visited unitigs =
            Outcome.ok g.adj g.indeg g.outdeg vis2 uni2 := by
  intro ws
  induction ws with
  | nil =>
    intro visited unitigs hws hps
    exact ⟨visited, unitigs, hps, fun e he => he, ⟨[], by simp⟩, by simp,
      fun fuel _ => rfl⟩
  | cons w rest ih =>
    intro visited unitigs hws hps
    by_cases hv : (v0, w) ∈ visited
    · obtain ⟨vis2, uni2, hps2, hmono, hext, hall, heq⟩ :=
        ih visited unitigs (fun x hx => hws x (by simp [hx])) hps
      refine ⟨vis2, uni2, hps2, hmono, hext, ?_, ?_⟩
      · intro w2 hw2
        rcases List.mem_cons.mp hw2 with h | h
        · rw [h]
          exact hmono _ hv
        · exact hall w2 h
      · intro fuel hfuel
        rw [processNeighbors_cons_eq, if_pos hv]
        exact heq fuel hfuel
    · have hwadj : w ∈ adjD g.adj v0 := hws w (by simp)
      have hinvW : WalkInv g visited v0 [] (visited ++ [(v0, w)]) w := by
        refine ⟨hv0k, hv0a, by simp, by simp, by simp, by simp, by simp,
          mem_dsts hwadj, ?_, Reach.base v0 hv0k hv0a, ?_, ?_⟩
        · exact List.chain'_pair.mpr hwadj
        · intro e
          show e ∈ visited ++ [(v0, w)] ↔ e ∈ visited ∨ e ∈ [(v0, w)]
          exact List.mem_append
        · intro e he
          have he2 : e ∈ [(v0, w)] := he
          simp at he2
          rw [he2]
          exact hv
      obtain ⟨p2, vis2, hout, hmono1, heqw⟩ :=
        walk_spec hg visited v0 hps.edges hps.pred (Dbound g + 1) []
          (visited ++ [(v0, w)]) w hinvW (by simp)
      have hps2 : PState g vis2 (unitigs ++ [p2]) :=
        pstate_extend hps hv0a hout
      obtain ⟨vis3, uni3, hps3, hmono3, hext3, hall3, heq3⟩ :=
        ih vis2 (unitigs ++ [p2]) (fun x hx => hws x (by simp [hx])) hps2
      refine ⟨vis3, uni3, hps3, ?_, ?_, ?_, ?_⟩
      · intro e he
        exact hmono3 e (hmono1 e (by simp [he]))
      · obtain ⟨t, ht⟩ := hext3
        exact ⟨p2 :: t, by rw [ht]; simp⟩
      · intro w2 hw2
        rcases List.mem_cons.mp hw2 with h | h
        · rw [h]
          exact hmono3 _ (hmono1 _ (by simp))
        · exact hall3 w2 h
      · intro fuel hfuel
        rw [processNeighbors_cons_eq, if_neg hv]
        have hsadd : sadd visited (v0, w) = visited ++ [(v0, w)] := by
          unfold sadd
          rw [if_neg hv]
        rw [hsadd, heqw fuel (by simpa using hfuel)]
        exact heq3 fuel hfuel

theorem processAnchors_spec {g : Graph} (hg : Consistent g) :
    ∀ (vs : List Node) (visited : List (Node × Node))
      (unitigs : List (List Node)),
      (∀ v ∈ vs, v ∈ dkeys g.adj ∧ ¬Interior g v) →
      PState g visited unitigs →
      ∃ vis2 uni2, PState g vis2 uni2 ∧
        (∀ e ∈ visited, e ∈ vis2) ∧
        (∀ v ∈ vs, ∀ w ∈ adjD g.adj v, (v, w) ∈ vis2) ∧
        ∀ fuel, Dbound g + 1 ≤ fuel →
          processAnchors fuel vs g.adj g.indeg g.outdeg visited unitigs =
            Outcome.ok g.adj g.indeg g.outdeg vis2 uni2 := by
  intro vs
  induction vs with
  | nil =>
    intro visited unitigs hvs hps
    exact ⟨visited, unitigs, hps, fun e he => he, by simp, fun fuel _ => rfl⟩
  | cons v rest ih =>
    intro visited unitigs hvs hps
    obtain ⟨hvk, hva⟩ := hvs v (by simp)
    have hvkS : (dlookup g.adj v).isSome = true := (dlookup_isSome_iff _ _).mpr hvk
    obtain ⟨lv, hlv⟩ : ∃ lv, dlookup g.adj v = some lv := by
      cases h : dlookup g.adj v with
      | none => rw [h] at hvkS; simp at hvkS
      | some l => exact ⟨l, rfl⟩
    have hadjv : adjD g.adj v = lv := by unfold adjD dgetD; rw [hlv]; rfl
    obtain ⟨vis2, uni2, hps2, hmono2, hext2, hall2, heq2⟩ :=
      processNeighbors_spec hg v hvk hva lv visited unitigs
        (by intro w hw; rw [hadjv]; exact hw) hps
    obtain ⟨vis3, uni3, hps3, hmono3, hall3, heq3⟩ :=
      ih vis2 uni2 (fun x hx => hvs x (by simp [hx])) hps2
    refine ⟨vis3, uni3, hps3, fun e he => hmono3 e (hmono2 e he), ?_, ?_⟩
    · intro v2 hv2 w hw
      rcases List.mem_cons.mp hv2 with h | h
      · rw [h] at hw
        rw [hadjv] at hw
        rw [h]
        exact hmono3 _ (hall2 w hw)
      · exact hall3 v2 h w hw
    · intro fuel hfuel
      rw [processAnchors_cons_eq]
      simp only [dgetI_hit hlv]
      rw [heq2 fuel hfuel]
      exact heq3 fuel hfuel

/-! ### Master specification of the extractor on a consistent graph -/

theorem find_unitigsF_spec {g : Graph} (hg : Consistent g) :
    ∃ vis U, PState g vis U ∧
      (∀ v ∈ dkeys g.adj, ¬Interior g v →
        ∀ w ∈ adjD g.adj v, (v, w) ∈ vis) ∧
      (∀ fuel, Dbound g + 1 ≤ fuel →
        find_unitigsF fuel g.adj g.indeg g.outdeg =
          Outcome.ok g.adj g.indeg g.outdeg vis U) ∧
      find_unitigs g.adj g.indeg g.outdeg =
        Outcome.ok g.adj g.indeg g.outdeg vis U := by
  have hanch := computeAnchors_consistent hg (dkeys g.adj) fun v hv => Or.inl hv
  have hps0 : PState g [] [] := by
    constructor
    · intro e
      simp [flatPairs]
    · simp [flatPairs]
    · intro e he
      simp at he
    · intro e he
      simp at he
    · intro e he
      simp at he
    · intro e he
      simp at he
  obtain ⟨vis2, uni2, hps2, hmono, hall, heq⟩ :=
    processAnchors_spec hg
      ((dkeys g.adj).filter fun v => decide (¬Interior g v)) [] []
      (by
        intro v hv
        rw [List.mem_filter] at hv
        exact ⟨hv.1, by simpa using hv.2⟩)
      hps0
  have hF : ∀ fuel, Dbound g + 1 ≤ fuel →
      find_unitigsF fuel g.adj g.indeg g.outdeg =
        Outcome.ok g.adj g.indeg g.outdeg vis2 uni2 := by
    intro fuel hfuel
    unfold find_unitigsF
    rw [hanch]
    exact heq fuel hfuel
  have hDb : Dbound g ≤ totalLen g.adj := by
    have h1 : ((dsts g.adj).dedup).length ≤ (dsts g.adj).length :=
      ((dsts g.adj).dedup_sublist).length_le
    have h2 := dsts_length g.adj
    unfold Dbound
    omega
  refine ⟨vis2, uni2, hps2, ?_, hF, ?_⟩
  · intro v hvk hvna w hw
    refine hall v ?_ w hw
    rw [List.mem_filter]
    exact ⟨hvk, by simpa⟩
  · unfold find_unitigs
    exact hF (totalLen g.adj + 1) (by omega)

/-- **C1** (counterexample to the claim as stated).  On the graph built from
the single read `"aba"` with `k = 1` the two nodes `a`, `b` form a pure
2-cycle, the extractor returns no unitigs, and so the (empty) deduplicated
set of traversed pairs does not equal the deduplicated edge set, which
contains `(a, b)`. -/
theorem C1_counterexample :
    ∃ vis U,
      find_unitigs (build_debruijn_graph [['a', 'b', 'a']] 1).adj
          (build_debruijn_graph [['a', 'b', 'a']] 1).indeg
          (build_debruijn_graph [['a', 'b', 'a']] 1).outdeg =
        Outcome.ok (build_debruijn_graph [['a', 'b', 'a']] 1).adj
          (build_debruijn_graph [['a', 'b', 'a']] 1).indeg
          (build_debruijn_graph [['a', 'b', 'a']] 1).outdeg vis U ∧
      ¬(∀ e : Node × Node, e ∈ flatPairs U ↔
          e.2 ∈ adjD (build_debruijn_graph [['a', 'b', 'a']] 1).adj e.1) := by
  refine ⟨[], [], by decide, ?_⟩
  intro h
  have hmem := (h (['a'], ['b'])).mpr (by decide)
  simp [flatPairs] at hmem

/-- **C1** (amended).  For every graph produced by `build_debruijn_graph`,
the consecutive `(node, next-node)` pairs across all unitigs returned by
`find_unitigs` contain no duplicate (no pair is traversed twice), and their
set is exactly the set of deduplicated adjacency pairs whose source is
reachable from an anchor; pairs lying on pure cycles (unreachable from any
anchor) are omitted, as the counterexample forces. -/
theorem C1_edge_coverage (reads : List (List Char)) (k : Int) :
    ∃ vis U,
      find_unitigs (build_debruijn_graph reads k).adj
          (build_debruijn_graph reads k).indeg
          (build_debruijn_graph reads k).outdeg =
        Outcome.ok (build_debruijn_graph reads k).adj
          (build_debruijn_graph reads k).indeg
          (build_debruijn_graph reads k).outdeg vis U ∧
      (flatPairs U).Nodup ∧
      ∀ e : Node × Node, e ∈ flatPairs U ↔
        (e.2 ∈ adjD (build_debruijn_graph reads k).adj e.1 ∧
          Reach (build_debruijn_graph reads k) e.1) := by
  have hg := build_consistent reads k
  obtain ⟨vis, U, hps, hanchall, -, heq⟩ := find_unitigsF_spec hg
  refine ⟨vis, U, heq, hps.pairs_nd, ?_⟩
  intro e
  rw [← hps.vis_pairs e]
  constructor
  · intro h
    exact ⟨hps.edges e h, hps.reach e h⟩
  · rintro ⟨hadj, hreach⟩
    have hcomp : ∀ u, Reach (build_debruijn_graph reads k) u →
        ∀ w ∈ adjD (build_debruijn_graph reads k).adj u, (u, w) ∈ vis := by
      intro u hr
      induction hr with
      | base v hvk hva =>
        intro w hw
        exact hanchall v hvk hva w hw
      | step u2 v hr2 hmem hI ih =>
        intro w hw
        have h1 : (u2, v) ∈ vis := ih v hmem
        have h2 := hps.succ (u2, v) h1 hI
        obtain ⟨z, hz⟩ := List.length_eq_one.mp hI.2
        have hwz : w = z := by
          rw [hz] at hw
          simpa using hw
        have hhead : (adjD (build_debruijn_graph reads k).adj v).headI = z := by
          rw [hz]
          rfl
        rw [hwz, ← hhead]
        exact h2
    have := hcomp e.1 hreach e.2 hadj
    simpa using this

/-- **C9** (confirmed).  For every graph produced by `build_debruijn_graph`,
`find_unitigs` returns normally with the very same adjacency, indegree and
outdegree structures it was given: every `defaultdict` access during the run
hits an existing key, so no entry is added and no value changed; the only
state it builds is the local visited-edge set and the unitig list. -/
theorem C9_no_mutation (reads : List (List Char)) (k : Int) :
    ∃ vis U,
      find_unitigs (build_debruijn_graph reads k).adj
          (build_debruijn_graph reads k).indeg
          (build_debruijn_graph reads k).outdeg =
        Outcome.ok (build_debruijn_graph reads k).adj
          (build_debruijn_graph reads k).indeg
          (build_debruijn_graph reads k).outdeg vis U := by
  obtain ⟨vis, U, -, -, -, heq⟩ := find_unitigsF_spec (build_consistent reads k)
  exact ⟨vis, U, heq⟩

/-- **C10** (confirmed).  For every graph produced by `build_debruijn_graph`,
`find_unitigs` terminates: with any fuel exceeding the total edge count the
run completes normally (never exhausting fuel), with a result independent of
the fuel — the inner `while` loop cannot revisit a node, so it performs at
most as many iterations as there are distinct destination nodes. -/
theorem C10_termination (reads : List (List Char)) (k : Int) :
    ∃ vis U, ∀ fuel, totalLen (build_debruijn_graph reads k).adj < fuel →
      find_unitigsF fuel (build_debruijn_graph reads k).adj
          (build_debruijn_graph reads k).indeg
          (build_debruijn_graph reads k).outdeg =
        Outcome.ok (build_debruijn_graph reads k).adj
          (build_debruijn_graph reads k).indeg
          (build_debruijn_graph reads k).outdeg vis U := by
  obtain ⟨vis, U, -, -, hF, -⟩ := find_unitigsF_spec (build_consistent reads k)
  refine ⟨vis, U, fun fuel hf => hF fuel ?_⟩
  have h1 : ((dsts (build_debruijn_graph reads k).adj).dedup).length ≤
      (dsts (build_debruijn_graph reads k).adj).length :=
    ((dsts (build_debruijn_graph reads k).adj).dedup_sublist).length_le
  have h2 := dsts_length (build_debruijn_graph reads k).adj
  unfold Dbound
  omega

/-- Witness for C10: the bound is met at `fuel = totalLen + 1` on a concrete
graph. -/
theorem C10_termination_witness :
    ∃ vis U,
      find_unitigsF (totalLen (build_debruijn_graph [['a', 'b', 'c']] 1).adj + 1)
          (build_debruijn_graph [['a', 'b', 'c']] 1).adj
          (build_debruijn_graph [['a', 'b', 'c']] 1).indeg
          (build_debruijn_graph [['a', 'b', 'c']] 1).outdeg =
        Outcome.ok (build_debruijn_graph [['a', 'b', 'c']] 1).adj
          (build_debruijn_graph [['a', 'b', 'c']] 1).indeg
          (build_debruijn_graph [['a', 'b', 'c']] 1).outdeg vis U := by
  obtain ⟨vis, U, h⟩ := C10_termination [['a', 'b', 'c']] 1
  exact ⟨vis, U, h _ (by omega)⟩

/-- **C7** (confirmed).  Both components are deterministic.  First conjunct:
`build_debruijn_graph` is a pure function — identical reads and `k` give
identical structures, entry orders included.  Second conjunct: whatever
triple of maps a first `find_unitigs` run on a built graph leaves behind,
re-running `find_unitigs` on those maps reproduces the identical outcome —
the same visited set and the same unitig list in the same order. -/
theorem C7_determinism :
    (∀ (reads reads2 : List (List Char)) (k k2 : Int), reads = reads2 →
      k = k2 → build_debruijn_graph reads k = build_debruijn_graph reads2 k2) ∧
    (∀ (reads : List (List Char)) (k : Int) (adj1 : Dict (List Node))
        (ind1 outd1 : Dict Nat) (vis : List (Node × Node))
        (U : List (List Node)),
      find_unitigs (build_debruijn_graph reads k).adj
          (build_debruijn_graph reads k).indeg
          (build_debruijn_graph reads k).outdeg =
        Outcome.ok adj1 ind1 outd1 vis U →
      find_unitigs adj1 ind1 outd1 = Outcome.ok adj1 ind1 outd1 vis U) := by
  constructor
  · intro reads reads2 k k2 h1 h2
    rw [h1, h2]
  · intro reads k adj1 ind1 outd1 vis U h
    obtain ⟨vis0, U0, -, -, -, heq⟩ :=
      find_unitigsF_spec (build_consistent reads k)
    rw [heq] at h
    injection h with h1 h2 h3 h4 h5
    rw [← h1, ← h2, ← h3, ← h4, ← h5]
    exact heq

/-- Witness for C7 on the single read `"ab"` with `k = 1`. -/
theorem C7_determinism_witness :
    build_debruijn_graph [['a', 'b']] 1 = build_debruijn_graph [['a', 'b']] 1 ∧
      find_unitigs [(['a'], [['b']])] [(['b'], 1), (['a'], 0)]
          [(['a'], 1), (['b'], 0)] =
        Outcome.ok [(['a'], [['b']])] [(['b'], 1), (['a'], 0)]
          [(['a'], 1), (['b'], 0)] [(['a'], ['b'])] [[['a'], ['b']]] :=
  ⟨C7_determinism.1 [['a', 'b']] [['a', 'b']] 1 1 rfl rfl,
   C7_determinism.2 [['a', 'b']] 1 [(['a'], [['b']])] [(['b'], 1), (['a'], 0)]
     [(['a'], 1), (['b'], 0)] [(['a'], ['b'])] [[['a'], ['b']]] (by decide)⟩

end DebruijnSpec
